import Mathlib

/-!
# Verification of the AutoViz symbol-matching engine

A shallow embedding of the core matching pipeline of this repository
(`SCRIPTS/match.py` and `SCRIPTS/ai_prefilter.py`), with theorems settling the
frozen claims about it.

Modelling conventions:
* Raster images are rectangular integer grids (`Img`).  `np.rot90` and
  `cv2.flip(·, 1)`/`np.fliplr` are modelled exactly (`rot90`, `flipH`).
* Python floats are modelled exactly over `ℚ`.  Computations whose numeric
  content is irrelevant to every claim and that cannot be represented exactly
  (the DCT-based perceptual hash, AKAZE keypoint matching and RANSAC inlier
  counting, the Hu-moment norm, the distance-transform core of the chamfer
  distance, the logarithmic aspect penalty, and the CNN embedding backbone)
  are abstract function parameters, bundled in `Measures` or passed as `emb`.
  All control flow, gating, ordering, caching, score combination and the
  rotation/mirror search — the subject of the claims — are translated
  concretely from the source.
* `list.sort` / `sorted` in Python are stable; they are modelled with
  `List.insertionSort`, which inserts earlier elements before later
  equal-keyed ones, hence is stable in the same sense.
* `faiss.IndexFlatIP.search` is an exact inner-product search; it is modelled
  as "sort all row indices by inner product, descending, stably over ascending
  row index, and take the first K".
* The md5 cache key of `_cache_key` is modelled injectively: the key simply is
  the `(path, mtime, size)` list together with the mirror flag, backbone name
  and tag that the source feeds into the hash.
-/

/-- A grayscale raster image: `h × w` grid of pixel values (`0` = black ink,
`255` = white background, as produced by `load_and_clean`). -/
structure Img where
  h : ℕ
  w : ℕ
  px : Fin h → Fin w → ℕ

/-- Safe pixel accessor (used only by concrete test instantiations). -/
def Img.get (I : Img) (i j : ℕ) : ℕ :=
  if hi : i < I.h then if hj : j < I.w then I.px ⟨i, hi⟩ ⟨j, hj⟩ else 255 else 255

/-- `np.rot90`: one counter-clockwise quarter turn; `out[i][j] = in[j][w-1-i]`. -/
def rot90 (I : Img) : Img :=
  ⟨I.w, I.h, fun i j => I.px j i.rev⟩

/-- `cv2.flip(img, 1)` = `np.fliplr`: horizontal mirror; `out[i][j] = in[i][w-1-j]`. -/
def flipH (I : Img) : Img :=
  ⟨I.h, I.w, fun i j => I.px i j.rev⟩

/-- `np.rot90` iterated `n` times. -/
def rotIter : ℕ → Img → Img
  | 0, I => I
  | n + 1, I => rot90 (rotIter n I)

theorem rot90_four (I : Img) : rot90 (rot90 (rot90 (rot90 I))) = I := by
  cases I with
  | mk h w px =>
    show Img.mk h w _ = Img.mk h w px
    congr 1
    funext i j
    simp [rot90, Fin.rev_rev]

theorem rotIter_add (m n : ℕ) (I : Img) : rotIter m (rotIter n I) = rotIter (m + n) I := by
  induction m with
  | zero => simp [rotIter]
  | succ k ih => simp [rotIter, ih, Nat.succ_add]

theorem rotIter_four (I : Img) : rotIter 4 I = I := by
  show rot90 (rot90 (rot90 (rot90 I))) = I
  exact rot90_four I

/-! ## Perceptual hash matching (`match.py`: `phash`, `hamming`, `phash_best_rotflip`)

`phash` resizes to a 32×32 grid, applies a DCT, keeps the low-frequency 8×8
block and thresholds against its median — a 64-bit fingerprint.  The DCT
arithmetic is floating point and is abstracted as a hash-function parameter
`ph : Img → Hash`; everything the claims speak about (the Hamming distance and
the rotation/mirror search loop) is modelled concretely. -/

/-- A 64-bit perceptual-hash fingerprint (`hash_size = 8` in the source). -/
def Hash : Type := Fin 64 → Bool

instance : DecidableEq Hash := fun a b => by
  unfold Hash
  infer_instance

/-- `hamming(a, b) = np.count_nonzero(a != b)`: the number of bit positions
at which the two fingerprints differ. -/
def hamming (a b : Hash) : ℕ :=
  (List.finRange 64).countP (fun i => a i != b i)

theorem hamming_le_64 (a b : Hash) : hamming a b ≤ 64 := by
  calc hamming a b ≤ (List.finRange 64).length := List.countP_le_length _
  _ = 64 := by simp

theorem hamming_eq_zero_iff (a b : Hash) : hamming a b = 0 ↔ a = b := by
  unfold hamming
  rw [List.countP_eq_zero]
  constructor
  · intro h
    funext i
    have := h i (List.mem_finRange i)
    simpa using this
  · intro h i _
    simp [h]

/-- One orientation tried by `phash_best_rotflip`: the oriented candidate image
together with the `(rotation, mirrored)` pose label the loop would record. -/
def Trial : Type := Img × ℕ × Bool

/-- The eight orientations tried by `phash_best_rotflip`, in loop order:
`for flip in (False, True)` outside, four `np.rot90` steps inside, with
`rot = 0, 90, 180, 270`. -/
def trials (cimg : Img) : List Trial :=
  [(cimg, 0, false), (rot90 cimg, 90, false),
   (rot90 (rot90 cimg), 180, false), (rot90 (rot90 (rot90 cimg)), 270, false),
   (flipH cimg, 0, true), (rot90 (flipH cimg), 90, true),
   (rot90 (rot90 (flipH cimg)), 180, true), (rot90 (rot90 (rot90 (flipH cimg))), 270, true)]

/-- The running-best update of the search loop: replace the best triple only on
a strictly smaller distance (`if dist < best[0]`). -/
def bestOf (d : Img → ℕ) (l : List Trial) (b : ℕ × ℕ × Bool) : ℕ × ℕ × Bool :=
  l.foldl (fun best t => if d t.1 < best.1 then (d t.1, t.2.1, t.2.2) else best) b

/-- `phash_best_rotflip(qimg, cimg)`: minimum Hamming distance over the eight
orientations of the candidate, with the winning `(rotation, mirrored)` pair;
initial best is `(10**9, 0, False)`. -/
def phash_best_rotflip (ph : Img → Hash) (qimg cimg : Img) : ℕ × ℕ × Bool :=
  bestOf (fun im => hamming (ph qimg) (ph im)) (trials cimg) (10 ^ 9, 0, false)

theorem bestOf_nil (d : Img → ℕ) (b : ℕ × ℕ × Bool) : bestOf d [] b = b := rfl

theorem bestOf_cons (d : Img → ℕ) (t : Trial) (l : List Trial) (b : ℕ × ℕ × Bool) :
    bestOf d (t :: l) b = bestOf d l (if d t.1 < b.1 then (d t.1, t.2.1, t.2.2) else b) := rfl

theorem bestOf_append (d : Img → ℕ) (l1 l2 : List Trial) (b : ℕ × ℕ × Bool) :
    bestOf d (l1 ++ l2) b = bestOf d l2 (bestOf d l1 b) :=
  List.foldl_append _ _ _ _

theorem bestOf_fst_le_init (d : Img → ℕ) (l : List Trial) (b : ℕ × ℕ × Bool) :
    (bestOf d l b).1 ≤ b.1 := by
  induction l generalizing b with
  | nil => exact le_refl _
  | cons t ts ih =>
    rw [bestOf_cons]
    by_cases h : d t.1 < b.1
    · calc (bestOf d ts _).1 ≤ _ := ih _
        _ ≤ b.1 := by simp only [h, if_true]; omega
    · calc (bestOf d ts _).1 ≤ _ := ih _
        _ ≤ b.1 := by simp only [h, if_false]; omega

theorem bestOf_fst_le (d : Img → ℕ) (l : List Trial) (b : ℕ × ℕ × Bool) :
    ∀ t ∈ l, (bestOf d l b).1 ≤ d t.1 := by
  induction l generalizing b with
  | nil => intro t ht; cases ht
  | cons s ts ih =>
    intro t ht
    rw [bestOf_cons]
    rcases List.mem_cons.mp ht with h | h
    · subst h
      by_cases hlt : d t.1 < b.1
      · calc (bestOf d ts _).1 ≤ _ := bestOf_fst_le_init d ts _
          _ ≤ d t.1 := by simp only [hlt, if_true]; omega
      · calc (bestOf d ts _).1 ≤ _ := bestOf_fst_le_init d ts _
          _ ≤ d t.1 := by simp only [hlt, if_false]; omega
    · exact ih _ t h

theorem bestOf_mem_or_init (d : Img → ℕ) (l : List Trial) (b : ℕ × ℕ × Bool) :
    bestOf d l b = b ∨ ∃ t ∈ l, bestOf d l b = (d t.1, t.2.1, t.2.2) := by
  induction l generalizing b with
  | nil => exact Or.inl rfl
  | cons s ts ih =>
    rw [bestOf_cons]
    by_cases h : d s.1 < b.1
    · simp only [h, if_true]
      rcases ih (d s.1, s.2.1, s.2.2) with h1 | ⟨t, ht, h2⟩
      · exact Or.inr ⟨s, List.mem_cons_self _ _, h1⟩
      · exact Or.inr ⟨t, List.mem_cons_of_mem _ ht, h2⟩
    · simp only [h, if_false]
      rcases ih b with h1 | ⟨t, ht, h2⟩
      · exact Or.inl h1
      · exact Or.inr ⟨t, List.mem_cons_of_mem _ ht, h2⟩

theorem bestOf_frozen (d : Img → ℕ) (l : List Trial) (b : ℕ × ℕ × Bool)
    (hb : b.1 = 0) : bestOf d l b = b := by
  induction l with
  | nil => rfl
  | cons t ts ih =>
    rw [bestOf_cons, hb]
    simp only [Nat.not_lt_zero, if_false]
    exact ih

theorem bestOf_fst_pos (d : Img → ℕ) (l : List Trial) (b : ℕ × ℕ × Bool)
    (hb : 0 < b.1) (hl : ∀ t ∈ l, 0 < d t.1) : 0 < (bestOf d l b).1 := by
  induction l generalizing b with
  | nil => exact hb
  | cons t ts ih =>
    rw [bestOf_cons]
    by_cases h : d t.1 < b.1
    · refine ih _ ?_ (fun s hs => hl s (List.mem_cons_of_mem _ hs))
      simp only [h, if_true]
      exact hl t (List.mem_cons_self _ _)
    · refine ih _ ?_ (fun s hs => hl s (List.mem_cons_of_mem _ hs))
      simpa [h] using hb

theorem bestOf_snd_false (d : Img → ℕ) (l : List Trial) (b : ℕ × ℕ × Bool)
    (hb : b.2.2 = false) (hl : ∀ t ∈ l, t.2.2 = false) : (bestOf d l b).2.2 = false := by
  rcases bestOf_mem_or_init d l b with h | ⟨t, ht, h⟩
  · rw [h]; exact hb
  · rw [h]; exact hl t ht

/-! ## Scoring (`match.py`: `composite_score`, `accept_policy`, constants) -/

/-- `PHASH_PREFILTER_MAX = 26`. -/
def PHASH_PREFILTER_MAX : ℕ := 26

/-- `AI_USE_MIRROR = False` (the configured default in `match.py`). -/
def AI_USE_MIRROR : Bool := false

/-- `AI_TOP_M = 80`. -/
def AI_TOP_M : ℕ := 80

/-- `TOPK = 5`. -/
def TOPK : ℕ := 5

/-- `AI_BATCH_SIZE = 64`. -/
def AI_BATCH_SIZE : ℕ := 64

/-- `composite_score(ph_d, good, inl, hu_d, chamf, ar_pen)` from `match.py`,
with Python floats modelled over `ℚ`.  `ph_d`, `good`, `inl` are integer
counts in the source. -/
def composite_score (ph_d good inl : ℕ) (hu_d chamf ar_pen : ℚ) : ℚ :=
  1.00 * (ph_d : ℚ)
    + 2.20 * min chamf 8.0
    + 6.00 * min ar_pen 0.8
    + 0.60 * min hu_d 5.0
    - 0.10 * ((min good 40 : ℕ) : ℚ)
    - 0.25 * ((min inl 40 : ℕ) : ℚ)

/-- `accept_policy(ph_d, good, inl, hu_d)` from `match.py`. -/
def accept_policy (ph_d good inl : ℕ) (hu_d : ℚ) : Bool :=
  if ph_d ≤ 12 ∧ (12 ≤ good ∨ 10 ≤ inl) then true
  else if ph_d ≤ 18 ∧ 14 ≤ inl then true
  else if hu_d ≤ 0.55 ∧ 16 ≤ good then true
  else false

/-! ## The per-query verification/scoring stage (`match.py`: `process_subfolder`)

The image measurements that feed the scorer are floating-point OpenCV
computations; they enter the model as the abstract bundle `Measures`:
* `ph` — the DCT perceptual hash (`phash`),
* `goodOf q c` — `len(ratio_match(qdes, cdes))` for the pair's AKAZE
  descriptors,
* `inlOf q c` — `homography_inliers(qkp, ckp, good)` for the pair,
* `huDist q c` — `np.linalg.norm(qhu - c["hu"])`,
* `chamferCore q c` — the distance-transform body of `chamfer_distance`
  (both masks non-empty),
* `arPen q c` — `ar_penalty(aspect_ratio(q), aspect_ratio(c))`.
The early-return branch of `chamfer_distance` (either resampled ink mask
empty ⇒ `999.0`) is modelled concretely via `blankImg`. -/

structure Measures where
  ph : Img → Hash
  goodOf : Img → Img → ℕ
  inlOf : Img → Img → ℕ
  huDist : Img → Img → ℚ
  chamferCore : Img → Img → ℚ
  arPen : Img → Img → ℚ

/-- An image with no ink: every pixel is background (`≥ 255`), so the inverted
mask `(255 - img) > 0` is empty (resampling an all-background image leaves it
all background). -/
def blankImg (I : Img) : Bool :=
  (List.finRange I.h).all (fun i => (List.finRange I.w).all (fun j => ! (I.px i j < 255)))

/-- `chamfer_distance(qbin, cbin)`: `999.0` when either ink mask is empty,
otherwise the (abstracted) symmetric distance-transform average. -/
def chamfer_distance (M : Measures) (qbin cbin : Img) : ℚ :=
  if blankImg qbin ∨ blankImg cbin then 999.0 else M.chamferCore qbin cbin

/-- One entry of `cand_idx`: a master candidate (`path` is an abstract file
identifier; the precomputed `hu` vector lives inside `Measures.huDist`). -/
structure Cand where
  path : ℕ
  img : Img

/-- One tuple appended to `scores` (the preview image component of the source
tuple is dropped; `cid` stands for the stored candidate path `c["path"]`). -/
structure ScoreRec where
  score : ℚ
  ph_d : ℕ
  good : ℕ
  inl : ℕ
  hud : ℚ
  cid : ℕ
  rot : ℕ
  flipped : Bool
  arp : ℚ
  chamf : ℚ
deriving DecidableEq

/-- The body of the main verification loop for one `(query, candidate)` pair:
aspect-ratio gate (`arp > 0.45`), pose-aware pHash gate
(`ph_d > PHASH_PREFILTER_MAX`), candidate re-orientation to the discovered
pose, measurements, composite score.  `none` when a gate rejects the pair. -/
def verifyPair (M : Measures) (qimg : Img) (c : Cand) : Option ScoreRec :=
  let arp := M.arPen qimg c.img
  if 0.45 < arp then none
  else
    let best := phash_best_rotflip M.ph qimg c.img
    let ph_d := best.1
    let rot_deg := best.2.1
    let flipped := best.2.2
    if PHASH_PREFILTER_MAX < ph_d then none
    else
      let timg := rotIter (rot_deg / 90) (if flipped then flipH c.img else c.img)
      let good := M.goodOf qimg c.img
      let inl := M.inlOf qimg c.img
      let hud := M.huDist qimg c.img
      let chamf := chamfer_distance M qimg timg
      some { score := composite_score ph_d good inl hud chamf arp,
             ph_d := ph_d, good := good, inl := inl, hud := hud,
             cid := c.path, rot := rot_deg, flipped := flipped,
             arp := arp, chamf := chamf }

/-- The degraded record appended per candidate by the `if not scores:` fallback
loop: no gates, `good = inl = 0`, `arp = 0.0`, composite computed from a fresh
chamfer distance against the *un-reoriented* candidate, but `999.0` recorded
in the chamfer slot of the tuple. -/
def fallbackRec (M : Measures) (qimg : Img) (c : Cand) : ScoreRec :=
  let best := phash_best_rotflip M.ph qimg c.img
  let hud := M.huDist qimg c.img
  { score := composite_score best.1 0 0 hud (chamfer_distance M qimg c.img) 0,
    ph_d := best.1, good := 0, inl := 0, hud := hud,
    cid := c.path, rot := best.2.1, flipped := best.2.2,
    arp := 0, chamf := 999.0 }

/-- `c_subset = [cand_idx[j] for j in keep_ids] if keep_ids else cand_idx`. -/
def candSubset (cands : List Cand) (keepIds : List ℕ) : List Cand :=
  if keepIds = [] then cands else keepIds.filterMap (fun j => cands.get? j)

/-- The scored pairs of the main verification loop, in iteration order. -/
def mainScores (M : Measures) (qimg : Img) (cands : List Cand) (keepIds : List ℕ) :
    List ScoreRec :=
  (candSubset cands keepIds).filterMap (verifyPair M qimg)

/-- `scores` after the `if not scores:` second-chance fallback. -/
def processScores (M : Measures) (qimg : Img) (cands : List Cand) (keepIds : List ℕ) :
    List ScoreRec :=
  let s := mainScores M qimg cands keepIds
  if s = [] then cands.map (fallbackRec M qimg) else s

/-- The ordering key of `scores.sort(key=lambda x: x[0])`. -/
def relScore (a b : ScoreRec) : Prop := a.score ≤ b.score

instance : DecidableRel relScore := fun a b => inferInstanceAs (Decidable (a.score ≤ b.score))

instance : IsTotal ScoreRec relScore := ⟨fun a b => le_total a.score b.score⟩

instance : IsTrans ScoreRec relScore := ⟨fun _ _ _ h1 h2 => le_trans h1 h2⟩

/-- Python's `list.sort` is stable; ascending stable sort by composite score. -/
def sortScores (l : List ScoreRec) : List ScoreRec := List.insertionSort relScore l

/-- The ranked score list of one query (ascending composite score, ties kept
in verification order). -/
def rankedScores (M : Measures) (qimg : Img) (cands : List Cand) (keepIds : List ℕ) :
    List ScoreRec :=
  sortScores (processScores M qimg cands keepIds)

/-- One emitted CSV row: `(record, rank, accepted)`; `enumerate(bestk, 1)`. -/
abbrev Row : Type := ScoreRec × ℕ × Bool

/-- The rows emitted for one query: the top `TOPK` ranked records, each
carrying its 1-based rank and the `accept_policy` flag computed from its own
`(ph_d, good, inl, hud)` fields. -/
def processRows (M : Measures) (qimg : Img) (cands : List Cand) (keepIds : List ℕ) :
    List Row :=
  ((rankedScores M qimg cands keepIds).take TOPK).enum.map
    (fun p => (p.2, p.1 + 1, accept_policy p.2.ph_d p.2.good p.2.inl p.2.hud))

/-! ## The deep-embedding prefilter (`ai_prefilter.py`)

An embedding vector is a row of `ℚ` values of dimension `D`; the CNN backbone
(`DeepEmbedder.embed_batch`, which maps each image to an L2-normalised feature
row) is the abstract parameter `emb : Img → Vec D`, applied element-wise as in
`embed_batch`. -/

/-- A feature row of dimension `D` (coordinates indexed by `0 .. D-1`; the
dimension is carried by the inner product). -/
def Vec (D : ℕ) : Type := ℕ → ℚ

/-- The all-zero row (used only as an out-of-range indexing default). -/
def vzero (D : ℕ) : Vec D := fun _ => 0

/-- `np.dot` of two rows: the inner product used by `qemb @ E.T` and by
`faiss.IndexFlatIP`. -/
def dot (D : ℕ) (v w : Vec D) : ℚ :=
  ((List.range D).map (fun i => v i * w i)).sum

/-- `rot_variants(img)`: the 4 rotations, in loop order. -/
def rot_variants (img : Img) : List Img :=
  [img, rot90 img, rot90 (rot90 img), rot90 (rot90 (rot90 img))]

/-- `rotflip_variants(img)`: 4 rotations of the image, then 4 rotations of its
mirror (`np.fliplr`), in loop order. -/
def rotflip_variants (img : Img) : List Img :=
  [img, rot90 img, rot90 (rot90 img), rot90 (rot90 (rot90 img)),
   flipH img, rot90 (flipH img), rot90 (rot90 (flipH img)), rot90 (rot90 (rot90 (flipH img)))]

/-- The index bundle returned by `build_deep_index`: embedding rows, the
owning candidate index of each row, the candidate paths, the orientation
count, and whether a faiss index was attached. -/
structure DeepIdx (D : ℕ) where
  E : List (Vec D)
  owner : List ℕ
  paths : List ℕ
  kOrients : ℕ
  hasFaiss : Bool

/-- The cache key fed to md5 by `_cache_key`, plus the `cache_tag` appended to
the file name: per-file `(path, mtime, size)` triples, the mirror flag, the
backbone name, the tag.  (The source hard-codes `"resnet18"` as the backbone
component regardless of the embedder actually in use.) -/
def CKey : Type := List (ℕ × ℕ × ℕ) × Bool × String × String

instance : DecidableEq CKey := fun a b => by
  unfold CKey
  infer_instance

/-- A cached bundle: `(emb, owner, paths)` as persisted by `np.savez`. -/
def CVal (D : ℕ) : Type := List (Vec D) × List ℕ × List ℕ

/-- The on-disk embedding cache, one `.npz` file per key. -/
def CacheState (D : ℕ) : Type := List (CKey × CVal D)

/-- Reading the cache file for a key, if present. -/
def lookupC (D : ℕ) : CacheState D → CKey → Option (CVal D)
  | [], _ => none
  | (k, v) :: rest, key => if key = k then some v else lookupC D rest key

/-- Writing (or overwriting) the cache file for a key. -/
def insertC (D : ℕ) (cache : CacheState D) (key : CKey) (v : CVal D) : CacheState D :=
  (key, v) :: cache

/-- The accumulator of the batched embedding loop in `build_deep_index`:
embedded rows so far, their owners, the pending chunk, and the number of
`embed_batch` (backbone) invocations so far. -/
structure BState (D : ℕ) where
  embAcc : List (Vec D)
  ownerAcc : List ℕ
  chunkI : List Img
  chunkO : List ℕ
  calls : ℕ

/-- `flush_chunk()`: run the backbone on the pending chunk (one invocation),
append the rows and owners; a no-op on an empty chunk. -/
def flushChunk (D : ℕ) (emb : Img → Vec D) (st : BState D) : BState D :=
  if st.chunkI.isEmpty then st
  else { embAcc := st.embAcc ++ st.chunkI.map emb,
         ownerAcc := st.ownerAcc ++ st.chunkO,
         chunkI := [], chunkO := [], calls := st.calls + 1 }

/-- Appending one orientation variant to the chunk, flushing when the chunk
reaches `batch_size`. -/
def pushVariant (D : ℕ) (emb : Img → Vec D) (batchSize : ℕ) (st : BState D)
    (i : ℕ) (v : Img) : BState D :=
  let st2 : BState D :=
    { st with chunkI := st.chunkI ++ [v], chunkO := st.chunkO ++ [i] }
  if batchSize ≤ st2.chunkI.length then flushChunk D emb st2 else st2

/-- The per-candidate step of the build loop: push the K orientation variants,
then the `(i+1) % 200 == 0` responsiveness flush. -/
def itemStep (D : ℕ) (emb : Img → Vec D) (useMirror : Bool) (batchSize : ℕ)
    (st : BState D) (ic : ℕ × Cand) : BState D :=
  let vs := if useMirror then rotflip_variants ic.2.img else rot_variants ic.2.img
  let st2 := vs.foldl (fun s v => pushVariant D emb batchSize s ic.1 v) st
  if (ic.1 + 1) % 200 = 0 then flushChunk D emb st2 else st2

/-- The cache key of one `build_deep_index` call. -/
def bdiKey (cands : List Cand) (useMirror : Bool) (mt sz : ℕ → ℕ) (cacheTag : String) : CKey :=
  (cands.map (fun c => (c.path, mt c.path, sz c.path)), useMirror, "resnet18", cacheTag)

/-- The cache-miss path of `build_deep_index`: run the batched embedding loop,
persist the bundle under the key, report the backbone invocation count. -/
def bdiFresh (D : ℕ) (haveFaiss : Bool) (emb : Img → Vec D) (cands : List Cand)
    (useMirror : Bool) (batchSize : ℕ) (cache : CacheState D) (key : CKey) :
    DeepIdx D × CacheState D × ℕ :=
  let st1 := cands.enum.foldl (itemStep D emb useMirror batchSize) ⟨[], [], [], [], 0⟩
  let stF := flushChunk D emb st1
  ({ E := stF.embAcc, owner := stF.ownerAcc, paths := cands.map (·.path),
     kOrients := if useMirror then 8 else 4,
     hasFaiss := haveFaiss && decide (0 < stF.embAcc.length) },
   insertC D cache key (stF.embAcc, stF.ownerAcc, cands.map (·.path)), stF.calls)

/-- `build_deep_index(cand_idx, embedder, use_mirror, batch_size, cache_dir,
cache_tag)`, with the cache directory always provided (as in
`process_subfolder`).  Returns the index, the updated cache state, and the
number of backbone (`embed_batch`) invocations performed.  A cached bundle is
used (with zero backbone invocations) only when its saved path list equals
the current one; otherwise the index is rebuilt. -/
def build_deep_index (D : ℕ) (haveFaiss : Bool) (emb : Img → Vec D)
    (cands : List Cand) (useMirror : Bool) (batchSize : ℕ)
    (mt sz : ℕ → ℕ) (cacheTag : String) (cache : CacheState D) :
    DeepIdx D × CacheState D × ℕ :=
  match lookupC D cache (bdiKey cands useMirror mt sz cacheTag) with
  | some v =>
    if v.2.2 = cands.map (·.path) then
      ({ E := v.1, owner := v.2.1, paths := cands.map (·.path),
         kOrients := if useMirror then 8 else 4,
         hasFaiss := haveFaiss && decide (0 < v.1.length) }, cache, 0)
    else bdiFresh D haveFaiss emb cands useMirror batchSize cache (bdiKey cands useMirror mt sz cacheTag)
  | none => bdiFresh D haveFaiss emb cands useMirror batchSize cache (bdiKey cands useMirror mt sz cacheTag)

/-- `np.max` on a list of ints (raises on empty; callers guard). -/
def npMaxN (l : List ℕ) : ℕ := l.foldl max 0

/-- `np.max` on a non-empty list of floats. -/
def npMaxQ : List ℚ → ℚ
  | [] => 0
  | x :: xs => xs.foldl max x

/-- `dict.fromkeys`: deduplicate, keeping the first occurrence of each key. -/
def dedupFirst (l : List ℕ) : List ℕ :=
  l.foldl (fun acc x => if x ∈ acc then acc else acc ++ [x]) []

/-- The query-orientation embeddings `qemb`: the same K orientation variants
as the index, mapped through the backbone. -/
def qembOf (D : ℕ) (qimg : Img) (emb : Img → Vec D) (idx : DeepIdx D) : List (Vec D) :=
  (if idx.kOrients = 8 then rotflip_variants qimg else rot_variants qimg).map emb

/-- `faiss.IndexFlatIP.search(v, K)` over the stored rows: exact inner-product
search — all row indices ordered by descending inner product (stably, so ties
keep ascending row order), truncated to `K`. -/
def faissSearch (D : ℕ) (E : List (Vec D)) (v : Vec D) (K : ℕ) : List ℕ :=
  (List.insertionSort (fun a b => dot D v (E.getD b (vzero D)) ≤ dot D v (E.getD a (vzero D)))
    (List.range E.length)).take K

/-- `float(np.max(sims[:, mask]))` for owner `o`: the maximum inner product
over all (query orientation × row of owner `o`) pairs, scanned row-major as
numpy flattens it. -/
def ownerMaxSim (D : ℕ) (qemb : List (Vec D)) (idx : DeepIdx D) (o : ℕ) : ℚ :=
  npMaxQ (qemb.flatMap (fun v =>
    ((List.range idx.owner.length).filter (fun j => decide (idx.owner.getD j 0 = o))).map
      (fun j => dot D v (idx.E.getD j (vzero D)))))

/-- `sorted(max_per_owner.items(), key=lambda kv: -kv[1])`: stable sort by
similarity, descending. -/
def relDesc (a b : ℕ × ℚ) : Prop := b.2 ≤ a.2

instance : DecidableRel relDesc := fun a b => inferInstanceAs (Decidable (b.2 ≤ a.2))

instance : IsTotal (ℕ × ℚ) relDesc := ⟨fun a b => le_total b.2 a.2⟩

instance : IsTrans (ℕ × ℚ) relDesc := ⟨fun _ _ _ h1 h2 => le_trans h2 h1⟩

/-- The faiss branch of `deep_prefilter`: per query-orientation row, retrieve
the owners of the `min(max(top_m, 50), rows)` best rows; deduplicate keeping
first occurrence; rank the surviving owners by maximum similarity,
descending (stable); keep the first `top_m`. -/
def faissShortlist (D : ℕ) (qemb : List (Vec D)) (idx : DeepIdx D) (topM : ℕ) : List ℕ :=
  let K := min (max topM 50) idx.E.length
  let owners := qemb.flatMap (fun v =>
    (faissSearch D idx.E v K).map (fun j => idx.owner.getD j 0))
  let uniq := dedupFirst owners
  let ranked := List.insertionSort relDesc (uniq.map (fun o => (o, ownerMaxSim D qemb idx o)))
  (ranked.map Prod.fst).take topM

/-- The dense branch of `deep_prefilter`: scan owner ids `0 .. owner.max()`,
keep those present, rank by maximum similarity, descending (stable); keep the
first `top_m`. -/
def exactShortlist (D : ℕ) (qemb : List (Vec D)) (idx : DeepIdx D) (topM : ℕ) : List ℕ :=
  let keys := (List.range (npMaxN idx.owner + 1)).filter (fun o => decide (o ∈ idx.owner))
  let ranked := List.insertionSort relDesc (keys.map (fun o => (o, ownerMaxSim D qemb idx o)))
  (ranked.map Prod.fst).take topM

/-- `deep_prefilter(qimg, embedder, deep_idx, top_m)`: candidate indices
ranked by maximum cosine similarity, descending.  On the dense (no-faiss)
path, `owner.max()` raises a `ValueError` when the owner array is empty. -/
def deep_prefilter (D : ℕ) (qimg : Img) (emb : Img → Vec D) (idx : DeepIdx D)
    (topM : ℕ) : Except String (List ℕ) :=
  let qemb := qembOf D qimg emb idx
  if idx.hasFaiss then
    Except.ok (faissShortlist D qemb idx topM)
  else
    if idx.owner = [] then
      Except.error "ValueError: zero-size array to reduction operation maximum"
    else
      Except.ok (exactShortlist D qemb idx topM)

/-! ## Concrete instantiations used by witnesses and counterexamples -/

/-- A constant hash (all bits clear). -/
def constHash : Hash := fun _ => false

/-- Trivial measures: constant hash, all measurements zero. -/
def Mtriv : Measures :=
  ⟨fun _ => constHash, fun _ _ => 0, fun _ _ => 0, fun _ _ => 0, fun _ _ => 0, fun _ _ => 0⟩

/-- A 2×2 all-ink image. -/
def imgZ : Img := ⟨2, 2, fun _ _ => 0⟩

/-- A candidate whose image is `imgZ`. -/
def candZ : Cand := ⟨0, imgZ⟩

/-- The score record `verifyPair Mtriv imgZ candZ` produces. -/
def recW : ScoreRec := ⟨0, 0, 0, 0, 0, 0, 0, false, 0, 0⟩

/-- The row `processRows Mtriv imgZ [candZ] []` emits. -/
def rowW : Row := (recW, 1, false)

/-- A hash reading only whether the top-left pixel is background. -/
def hashTL255 : Img → Hash := fun img => fun _ => decide (img.get 0 0 = 255)

/-- Measures under which a blank query is 64 hash bits away from `imgZ`. -/
def MB : Measures :=
  ⟨hashTL255, fun _ _ => 0, fun _ _ => 0, fun _ _ => 0, fun _ _ => 7, fun _ _ => 0⟩

/-- A 2×2 blank (all-background) image. -/
def imgB : Img := ⟨2, 2, fun _ _ => 255⟩

/-! ## C1 — the composite score formula -/

/-- C1: every score record emitted by the verification stage carries a
composite score equal to
`1.0*phash + 2.2*min(chamfer,8) + 6.0*min(aspect,0.8) + 0.6*min(shape,5)
 - 0.1*min(good,40) - 0.25*min(inliers,40)`,
and the per-query ranking orders records by this score ascending (lower is
better). -/
theorem composite_score_eq (a b c : ℕ) (d e f : ℚ) :
    composite_score a b c d e f
      = 1.00 * (a : ℚ) + 2.20 * min e 8.0 + 6.00 * min f 0.8 + 0.60 * min d 5.0
        - 0.10 * ((min b 40 : ℕ) : ℚ) - 0.25 * ((min c 40 : ℕ) : ℚ) := by
  unfold composite_score
  rfl

theorem C1_composite_score_formula :
    (∀ (M : Measures) (q : Img) (c : Cand) (r : ScoreRec),
        verifyPair M q c = some r →
        r.score = 1.00 * (r.ph_d : ℚ) + 2.20 * min r.chamf 8.0 + 6.00 * min r.arp 0.8
          + 0.60 * min r.hud 5.0
          - 0.10 * ((min r.good 40 : ℕ) : ℚ) - 0.25 * ((min r.inl 40 : ℕ) : ℚ))
    ∧ (∀ (M : Measures) (q : Img) (cands : List Cand) (kIds : List ℕ),
        List.Sorted relScore (rankedScores M q cands kIds)) := by
  constructor
  · intro M q c r h
    simp only [verifyPair] at h
    split_ifs at h
    all_goals cases h
    all_goals dsimp only
    all_goals exact composite_score_eq _ _ _ _ _ _
  · intro M q cands kIds
    exact List.sorted_insertionSort relScore _

theorem verifyPair_Mtriv : verifyPair Mtriv imgZ candZ = some recW := by
  have h1 : phash_best_rotflip (fun _ => constHash) imgZ imgZ = (0, 0, false) := by decide
  have h2 : blankImg imgZ = false := by decide
  have h3 : blankImg (rotIter 0 imgZ) = false := by decide
  simp only [verifyPair, Mtriv, candZ, recW, chamfer_distance, PHASH_PREFILTER_MAX,
    h1, h2, h3, composite_score_eq]
  norm_num [h3]

theorem verifyPair_MB : verifyPair MB imgB candZ = none := by
  have h1 : phash_best_rotflip hashTL255 imgB imgZ = (64, 0, false) := by decide
  simp only [verifyPair, MB, candZ, PHASH_PREFILTER_MAX, h1]
  norm_num

theorem mainScores_MB : mainScores MB imgB [candZ] [] = [] := by
  simp [mainScores, candSubset, verifyPair_MB]

theorem processScores_Mtriv : processScores Mtriv imgZ [candZ] [] = [recW] := by
  have hm : mainScores Mtriv imgZ [candZ] [] = [recW] := by
    simp [mainScores, candSubset, verifyPair_Mtriv]
  simp [processScores, hm]

theorem processRows_Mtriv : processRows Mtriv imgZ [candZ] [] = [rowW] := by
  have ha : accept_policy 0 0 0 0 = false := by norm_num [accept_policy]
  have hr : rankedScores Mtriv imgZ [candZ] [] = [recW] := by
    simp [rankedScores, sortScores, processScores_Mtriv, List.insertionSort]
  simp [processRows, hr, TOPK, rowW, recW, ha]

theorem C1_witness :
    verifyPair Mtriv imgZ candZ = some recW ∧
    recW.score = 1.00 * (recW.ph_d : ℚ) + 2.20 * min recW.chamf 8.0
      + 6.00 * min recW.arp 0.8 + 0.60 * min recW.hud 5.0
      - 0.10 * ((min recW.good 40 : ℕ) : ℚ) - 0.25 * ((min recW.inl 40 : ℕ) : ℚ) :=
  ⟨verifyPair_Mtriv, C1_composite_score_formula.1 Mtriv imgZ candZ recW verifyPair_Mtriv⟩

/-! ## C4 — the acceptance policy -/

theorem accept_policy_eq_true_iff (a b c : ℕ) (d : ℚ) :
    accept_policy a b c d = true ↔
      ((a ≤ 12 ∧ (12 ≤ b ∨ 10 ≤ c)) ∨ (a ≤ 18 ∧ 14 ≤ c) ∨ (d ≤ 0.55 ∧ 16 ≤ b)) := by
  unfold accept_policy
  split_ifs with h1 h2 h3
  · simpa using Or.inl h1
  · simpa using Or.inr (Or.inl h2)
  · simpa using Or.inr (Or.inr h3)
  · simp only [Bool.false_eq_true, false_iff]
    rintro (hc | hc | hc)
    · exact h1 hc
    · exact h2 hc
    · exact h3 hc

/-- C4: every emitted row's `accepted` flag is true exactly under the claimed
three-clause policy over its own fields, and stripping the flag (and rank)
from the rows gives back exactly the top-`TOPK` ranked score records — the
flag is surfaced, never used to filter or reorder the ranking. -/
theorem C4_accept_policy_surfaced :
    ∀ (M : Measures) (q : Img) (cands : List Cand) (kIds : List ℕ),
      ((processRows M q cands kIds).map Prod.fst
         = (rankedScores M q cands kIds).take TOPK)
      ∧ ∀ row ∈ processRows M q cands kIds,
          (row.2.2 = true ↔
            ((row.1.ph_d ≤ 12 ∧ (12 ≤ row.1.good ∨ 10 ≤ row.1.inl))
              ∨ (row.1.ph_d ≤ 18 ∧ 14 ≤ row.1.inl)
              ∨ (row.1.hud ≤ 0.55 ∧ 16 ≤ row.1.good))) := by
  intro M q cands kIds
  constructor
  · unfold processRows
    rw [List.map_map]
    exact List.enum_map_snd _
  · intro row hrow
    unfold processRows at hrow
    rcases List.mem_map.mp hrow with ⟨p, _, hpe⟩
    subst hpe
    exact accept_policy_eq_true_iff _ _ _ _

theorem C4_witness :
    rowW ∈ processRows Mtriv imgZ [candZ] [] ∧
    (rowW.2.2 = true ↔
      ((rowW.1.ph_d ≤ 12 ∧ (12 ≤ rowW.1.good ∨ 10 ≤ rowW.1.inl))
        ∨ (rowW.1.ph_d ≤ 18 ∧ 14 ≤ rowW.1.inl)
        ∨ (rowW.1.hud ≤ 0.55 ∧ 16 ≤ rowW.1.good))) :=
  ⟨by simp [processRows_Mtriv],
   (C4_accept_policy_surfaced Mtriv imgZ [candZ] []).2 rowW (by simp [processRows_Mtriv])⟩

/-! ## C2 — the second-chance fallback -/

/-- C2 (amended): when the candidate set is non-empty, the emitted score list
and the emitted rows of a query are never empty — the `if not scores` fallback
re-scores the full candidate set (gate-free, with a degraded scorer; see C10),
so at least one scored candidate is always produced. -/
theorem C2_fallback_guarantee :
    ∀ (M : Measures) (q : Img) (cands : List Cand) (kIds : List ℕ), cands ≠ [] →
      processScores M q cands kIds ≠ [] ∧ processRows M q cands kIds ≠ [] := by
  intro M q cands kIds hc
  have hps : processScores M q cands kIds ≠ [] := by
    unfold processScores
    by_cases h : mainScores M q cands kIds = []
    · rw [if_pos h]
      intro he
      exact hc (List.map_eq_nil_iff.mp he)
    · rw [if_neg h]
      exact h
  refine ⟨hps, ?_⟩
  have h1 : 0 < (rankedScores M q cands kIds).length := by
    unfold rankedScores sortScores
    rw [List.length_insertionSort]
    exact List.length_pos.mpr hps
  have h2 : 0 < (processRows M q cands kIds).length := by
    unfold processRows
    rw [List.length_map, List.enum_length, List.length_take]
    exact lt_min (by norm_num [TOPK]) h1
  exact List.length_pos.mp h2

theorem C2_witness :
    processScores Mtriv imgZ [candZ] [] ≠ [] ∧ processRows Mtriv imgZ [candZ] [] ≠ [] :=
  C2_fallback_guarantee Mtriv imgZ [candZ] [] (by simp)

/-- C2 (counterexample to the claim as stated): on a query whose main pass
gates out every candidate, the emitted scores are *not* a re-run of the
verification stage over the full candidate set (that re-run still yields
nothing — the same gates fire), yet the emitted scores are non-empty: the
fallback uses a different, gate-free degraded scorer. -/
theorem C2_counterexample :
    processScores MB imgB [candZ] [] ≠ [candZ].filterMap (verifyPair MB imgB)
    ∧ processScores MB imgB [candZ] [] ≠ [] := by
  have hps : processScores MB imgB [candZ] [] = [fallbackRec MB imgB candZ] := by
    simp [processScores, mainScores_MB]
  constructor
  · rw [hps]
    simp [verifyPair_MB]
  · rw [hps]
    exact List.cons_ne_nil _ _

/-! ## C10 — the fallback's sentinel chamfer field -/

/-- C10 (amended): when the main pass yields no scores, the emitted records
are exactly the fallback records of all candidates; each fixes
`good = inl = 0`, `arp = 0.0`, records `chamf = 999.0`, and scores with a
freshly computed chamfer distance against the *un-reoriented* candidate; the
recorded `999.0` differs from the chamfer used in the score except when that
fresh chamfer is itself the degenerate-image sentinel `999.0`. -/
theorem C10_fallback_sentinel :
    ∀ (M : Measures) (q : Img) (cands : List Cand) (kIds : List ℕ),
      mainScores M q cands kIds = [] →
      processScores M q cands kIds = cands.map (fallbackRec M q)
      ∧ ∀ c ∈ cands,
          (fallbackRec M q c).good = 0 ∧ (fallbackRec M q c).inl = 0
          ∧ (fallbackRec M q c).arp = 0 ∧ (fallbackRec M q c).chamf = 999.0
          ∧ (fallbackRec M q c).score
              = composite_score (fallbackRec M q c).ph_d 0 0 (fallbackRec M q c).hud
                  (chamfer_distance M q c.img) 0
          ∧ (chamfer_distance M q c.img ≠ 999.0 →
              (fallbackRec M q c).chamf ≠ chamfer_distance M q c.img) := by
  intro M q cands kIds h
  constructor
  · unfold processScores
    rw [if_pos h]
  · intro c _
    refine ⟨rfl, rfl, rfl, rfl, ?_, ?_⟩
    · dsimp only [fallbackRec]
    · intro hne
      exact Ne.symm hne

theorem C10_witness :
    mainScores MB imgB [candZ] [] = []
    ∧ processScores MB imgB [candZ] [] = [candZ].map (fallbackRec MB imgB) :=
  ⟨mainScores_MB, (C10_fallback_sentinel MB imgB [candZ] [] mainScores_MB).1⟩

/-- C10 (counterexample to the claim as stated): for a blank query, the fresh
chamfer distance used in the fallback score is itself the sentinel `999.0`,
so the recorded `chamferDistance` *equals* the chamfer value used in the
score, contradicting the claimed inequality. -/
theorem C10_counterexample :
    mainScores MB imgB [candZ] [] = []
    ∧ (fallbackRec MB imgB candZ).chamf = chamfer_distance MB imgB candZ.img := by
  refine ⟨mainScores_MB, ?_⟩
  have hb : blankImg imgB = true := by decide
  simp [fallbackRec, chamfer_distance, hb]

/-! ## C9 — tie-breaking in the ranked output -/

theorem filter_orderedInsert_eq (s : ℚ) (r : ScoreRec) (hr : r.score = s) :
    ∀ l : List ScoreRec,
      (List.orderedInsert relScore r l).filter (fun x => decide (x.score = s))
        = r :: l.filter (fun x => decide (x.score = s)) := by
  intro l
  induction l with
  | nil => simp [List.orderedInsert, hr]
  | cons b bs ih =>
    rw [List.orderedInsert]
    by_cases h : relScore r b
    · rw [if_pos h]
      simp [hr]
    · rw [if_neg h]
      have hb : ¬ (b.score = s) := fun he => h (le_of_eq (hr.trans he.symm))
      simp [List.filter_cons, hb, ih, hr]

theorem filter_orderedInsert_ne (s : ℚ) (r : ScoreRec) (hr : ¬ (r.score = s)) :
    ∀ l : List ScoreRec,
      (List.orderedInsert relScore r l).filter (fun x => decide (x.score = s))
        = l.filter (fun x => decide (x.score = s)) := by
  intro l
  induction l with
  | nil => simp [List.orderedInsert, hr]
  | cons b bs ih =>
    rw [List.orderedInsert]
    by_cases h : relScore r b
    · rw [if_pos h]
      simp [hr]
    · rw [if_neg h]
      simp [List.filter_cons, ih]

theorem sortScores_filter (s : ℚ) : ∀ l : List ScoreRec,
    (sortScores l).filter (fun x => decide (x.score = s))
      = l.filter (fun x => decide (x.score = s)) := by
  intro l
  induction l with
  | nil => rfl
  | cons r rs ih =>
    show (List.orderedInsert relScore r (sortScores rs)).filter _ = _
    by_cases hr : r.score = s
    · rw [filter_orderedInsert_eq s r hr, ih]
      simp [List.filter_cons, hr]
    · rw [filter_orderedInsert_ne s r hr, ih]
      simp [List.filter_cons, hr]

/-- C9 (amended): the ranking is a *stable* ascending sort of the scores, so
candidates with equal composite scores keep their relative order from the
verification sequence — the prefilter shortlist order when a shortlist was in
effect, candidate-index order otherwise — not candidate-id order in general:
for every score value `s`, the subsequence of ranked records with score `s`
equals the subsequence of emitted (verification-order) records with score
`s`. -/
theorem C9_tie_order_stable :
    ∀ (M : Measures) (q : Img) (cands : List Cand) (kIds : List ℕ) (s : ℚ),
      (rankedScores M q cands kIds).filter (fun x => decide (x.score = s))
        = (processScores M q cands kIds).filter (fun x => decide (x.score = s)) := by
  intro M q cands kIds s
  exact sortScores_filter s _

def img2 (a b c d : ℕ) : Img :=
  ⟨2, 2, fun i j => if i.val = 0 then (if j.val = 0 then a else b)
                    else (if j.val = 0 then c else d)⟩

def Q9 : Img := img2 1 2 3 4

def C0img : Img := img2 10 11 12 13

def C1img : Img := img2 20 21 22 23

def emb9 : Img → Vec 1 := fun img => fun _ =>
  if 1 ≤ img.get 0 0 ∧ img.get 0 0 ≤ 4 then 1
  else if 10 ≤ img.get 0 0 ∧ img.get 0 0 ≤ 13 then 8
  else if 20 ≤ img.get 0 0 ∧ img.get 0 0 ≤ 23 then 9 else 0

def cands9 : List Cand := [⟨0, C0img⟩, ⟨1, C1img⟩]

def M9 : Measures :=
  ⟨fun _ => constHash, fun _ _ => 0, fun _ _ => 0, fun _ _ => 0, fun _ _ => 1, fun _ _ => 0⟩

def idx9 : DeepIdx 1 :=
  (build_deep_index 1 false emb9 cands9 false 64 (fun _ => 0) (fun _ => 0) "" []).1

theorem idx9_eq : idx9 =
    ⟨[emb9 C0img, emb9 (rot90 C0img), emb9 (rot90 (rot90 C0img)),
      emb9 (rot90 (rot90 (rot90 C0img))), emb9 C1img, emb9 (rot90 C1img),
      emb9 (rot90 (rot90 C1img)), emb9 (rot90 (rot90 (rot90 C1img)))],
     [0, 0, 0, 0, 1, 1, 1, 1], [0, 1], 4, false⟩ := rfl

theorem dp9 : deep_prefilter 1 Q9 emb9 idx9 80 = Except.ok [1, 0] := by
  have e1 : emb9 Q9 0 = 1 := rfl
  have e2 : emb9 (rot90 Q9) 0 = 1 := rfl
  have e3 : emb9 (rot90 (rot90 Q9)) 0 = 1 := rfl
  have e4 : emb9 (rot90 (rot90 (rot90 Q9))) 0 = 1 := rfl
  have f1 : emb9 C0img 0 = 8 := rfl
  have f2 : emb9 (rot90 C0img) 0 = 8 := rfl
  have f3 : emb9 (rot90 (rot90 C0img)) 0 = 8 := rfl
  have f4 : emb9 (rot90 (rot90 (rot90 C0img))) 0 = 8 := rfl
  have g1 : emb9 C1img 0 = 9 := rfl
  have g2 : emb9 (rot90 C1img) 0 = 9 := rfl
  have g3 : emb9 (rot90 (rot90 C1img)) 0 = 9 := rfl
  have g4 : emb9 (rot90 (rot90 (rot90 C1img))) 0 = 9 := rfl
  rw [deep_prefilter, idx9_eq]
  norm_num [exactShortlist, qembOf, rot_variants, ownerMaxSim, npMaxQ, npMaxN, dot,
    List.range_succ, List.insertionSort, List.orderedInsert, relDesc,
    e1, e2, e3, e4, f1, f2, f3, f4, g1, g2, g3, g4]
  intro hcon
  simp at hcon

def recC (cid : ℕ) : ScoreRec := ⟨11/5, 0, 0, 0, 0, cid, 0, false, 0, 1⟩

theorem verifyPair_M9_c1 : verifyPair M9 Q9 ⟨1, C1img⟩ = some (recC 1) := by
  have h1 : phash_best_rotflip (fun _ => constHash) Q9 C1img = (0, 0, false) := by decide
  have h2 : blankImg Q9 = false := by decide
  have h3 : blankImg (rotIter 0 C1img) = false := by decide
  simp only [verifyPair, M9, recC, chamfer_distance, PHASH_PREFILTER_MAX,
    h1, h2, h3, composite_score_eq]
  norm_num [h3]

theorem verifyPair_M9_c0 : verifyPair M9 Q9 ⟨0, C0img⟩ = some (recC 0) := by
  have h1 : phash_best_rotflip (fun _ => constHash) Q9 C0img = (0, 0, false) := by decide
  have h2 : blankImg Q9 = false := by decide
  have h3 : blankImg (rotIter 0 C0img) = false := by decide
  simp only [verifyPair, M9, recC, chamfer_distance, PHASH_PREFILTER_MAX,
    h1, h2, h3, composite_score_eq]
  norm_num [h3]

theorem ranked_M9 : rankedScores M9 Q9 cands9 [1, 0] = [recC 1, recC 0] := by
  have hm : processScores M9 Q9 cands9 [1, 0] = [recC 1, recC 0] := by
    have hsub : candSubset cands9 [1, 0] = [⟨1, C1img⟩, ⟨0, C0img⟩] := by
      simp [candSubset, cands9]
    have hms : mainScores M9 Q9 cands9 [1, 0] = [recC 1, recC 0] := by
      simp [mainScores, hsub, verifyPair_M9_c1, verifyPair_M9_c0]
    simp [processScores, hms]
  rw [rankedScores, hm]
  norm_num [sortScores, List.insertionSort, List.orderedInsert, relScore, recC]

/-- C9 (counterexample to the claim as stated): the exact-path prefilter ranks
candidate 1 first ([1, 0]); both candidates then verify to *equal* composite
scores (11/5), and the ranked output keeps them in shortlist order [1, 0] —
the opposite of candidate-id order — so equal-score order is not determined
by candidate id. -/
theorem C9_counterexample :
    deep_prefilter 1 Q9 emb9 idx9 80 = Except.ok [1, 0]
    ∧ (rankedScores M9 Q9 cands9 [1, 0]).map (fun r => r.cid) = [1, 0]
    ∧ (rankedScores M9 Q9 cands9 [1, 0]).map (fun r => r.score) = [11/5, 11/5] := by
  refine ⟨dp9, ?_, ?_⟩
  · rw [ranked_M9]
    rfl
  · rw [ranked_M9]
    rfl

/-! ## C3 and C7 - the rotation/mirror hash search -/

theorem hamming_self (a : Hash) : hamming a a = 0 := by
  simp [hamming]

theorem hamming_pos_of_ne (a b : Hash) (h : a ≠ b) : 0 < hamming a b :=
  Nat.pos_of_ne_zero (fun h0 => h ((hamming_eq_zero_iff a b).1 h0))

/-- The unmirrored half of the trial list. -/
def firstFour (cimg : Img) : List Trial :=
  [(cimg, 0, false), (rot90 cimg, 90, false),
   (rot90 (rot90 cimg), 180, false), (rot90 (rot90 (rot90 cimg)), 270, false)]

/-- The mirrored half of the trial list. -/
def lastFour (cimg : Img) : List Trial :=
  [(flipH cimg, 0, true), (rot90 (flipH cimg), 90, true),
   (rot90 (rot90 (flipH cimg)), 180, true), (rot90 (rot90 (rot90 (flipH cimg))), 270, true)]

theorem trials_split (cimg : Img) : trials cimg = firstFour cimg ++ lastFour cimg := rfl

theorem bestOf_trials_first4 (d : Img → ℕ) (cimg : Img) (t0 : Trial)
    (hmem : t0 ∈ firstFour cimg) (h0 : d t0.1 = 0) :
    (bestOf d (trials cimg) (10 ^ 9, 0, false)).1 = 0
    ∧ (bestOf d (trials cimg) (10 ^ 9, 0, false)).2.2 = false := by
  have hB1 : (bestOf d (firstFour cimg) (10 ^ 9, 0, false)).1 = 0 := by
    have hle := bestOf_fst_le d (firstFour cimg) (10 ^ 9, 0, false) t0 hmem
    omega
  have hBf : (bestOf d (firstFour cimg) (10 ^ 9, 0, false)).2.2 = false := by
    refine bestOf_snd_false d (firstFour cimg) _ rfl ?_
    intro t ht
    fin_cases ht <;> rfl
  have hres : bestOf d (trials cimg) (10 ^ 9, 0, false)
      = bestOf d (firstFour cimg) (10 ^ 9, 0, false) := by
    rw [trials_split, bestOf_append]
    exact bestOf_frozen _ _ _ hB1
  rw [hres]
  exact ⟨hB1, hBf⟩

theorem phash_best_unique_zero (ph : Img → Hash) (q cimg : Img)
    (l1 : List Trial) (t0 : Trial) (l2 : List Trial)
    (hsplit : trials cimg = l1 ++ t0 :: l2)
    (hpos : ∀ t ∈ l1, 0 < hamming (ph q) (ph t.1))
    (h0 : hamming (ph q) (ph t0.1) = 0) :
    phash_best_rotflip ph q cimg = (0, t0.2.1, t0.2.2) := by
  rw [phash_best_rotflip, hsplit, bestOf_append, bestOf_cons]
  have hB1 : 0 < (bestOf (fun im => hamming (ph q) (ph im)) l1 (10 ^ 9, 0, false)).1 :=
    bestOf_fst_pos _ l1 _ (by norm_num) hpos
  simp only [h0, hB1, if_true]
  exact bestOf_frozen _ _ _ rfl

theorem phash_eq_bestOf (ph : Img → Hash) (q cimg : Img) :
    phash_best_rotflip ph q cimg
      = bestOf (fun im => hamming (ph q) (ph im)) (trials cimg) (10 ^ 9, 0, false) := rfl

theorem phash_first4_zero (ph : Img → Hash) (q cimg : Img) (t0 : Trial)
    (hmem : t0 ∈ firstFour cimg) (h0 : hamming (ph q) (ph t0.1) = 0) :
    (phash_best_rotflip ph q cimg).1 = 0 ∧ (phash_best_rotflip ph q cimg).2.2 = false := by
  rw [phash_eq_bestOf]
  exact bestOf_trials_first4 (fun im => hamming (ph q) (ph im)) cimg t0 hmem h0

/-- C3 (amended): for every hash function, image `I` and `k < 4`, matching `I`
against `np.rot90`-rotated `rotIter k I` yields Hamming distance 0 with
`mirrored = False`; and when the four rotation hashes of `I` are pairwise
distinct, the reported rotation is `((4 - k) mod 4) * 90` — the rotation that
maps the candidate back onto `I` — not `k * 90` in general. -/
theorem C3_amended :
    ∀ (ph : Img → Hash) (I : Img) (k : Fin 4),
      ((phash_best_rotflip ph I (rotIter k.val I)).1 = 0
        ∧ (phash_best_rotflip ph I (rotIter k.val I)).2.2 = false)
      ∧ ((∀ m1 m2 : Fin 4, m1 ≠ m2 → ph (rotIter m1.val I) ≠ ph (rotIter m2.val I)) →
          (phash_best_rotflip ph I (rotIter k.val I)).2.1 = ((4 - k.val) % 4) * 90) := by
  intro ph I k
  obtain ⟨kv, hkv⟩ := k
  have hv : (⟨kv, hkv⟩ : Fin 4).val = kv := rfl
  rw [hv]
  constructor
  · interval_cases kv
    · exact phash_first4_zero ph I (rotIter 0 I) ((rotIter 0 I, 0, false) : Trial)
        (List.mem_cons_self _ _)
        (show hamming (ph I) (ph (rotIter 0 I)) = 0 from hamming_self _)
    · exact phash_first4_zero ph I (rotIter 1 I)
        ((rot90 (rot90 (rot90 (rotIter 1 I))), 270, false) : Trial)
        (List.mem_cons_of_mem _ (List.mem_cons_of_mem _
          (List.mem_cons_of_mem _ (List.mem_cons_self _ _))))
        (show hamming (ph I) (ph (rot90 (rot90 (rot90 (rotIter 1 I))))) = 0 by
          rw [show rot90 (rot90 (rot90 (rotIter 1 I))) = I from rotIter_four I]
          exact hamming_self _)
    · exact phash_first4_zero ph I (rotIter 2 I)
        ((rot90 (rot90 (rotIter 2 I)), 180, false) : Trial)
        (List.mem_cons_of_mem _ (List.mem_cons_of_mem _ (List.mem_cons_self _ _)))
        (show hamming (ph I) (ph (rot90 (rot90 (rotIter 2 I)))) = 0 by
          rw [show rot90 (rot90 (rotIter 2 I)) = I from rotIter_four I]
          exact hamming_self _)
    · exact phash_first4_zero ph I (rotIter 3 I)
        ((rot90 (rotIter 3 I), 90, false) : Trial)
        (List.mem_cons_of_mem _ (List.mem_cons_self _ _))
        (show hamming (ph I) (ph (rot90 (rotIter 3 I))) = 0 by
          rw [show rot90 (rotIter 3 I) = I from rotIter_four I]
          exact hamming_self _)
  · intro hdist
    interval_cases kv
    · have h := phash_best_unique_zero ph I (rotIter 0 I) []
        ((rotIter 0 I, 0, false) : Trial)
        [(rot90 (rotIter 0 I), 90, false), (rot90 (rot90 (rotIter 0 I)), 180, false),
         (rot90 (rot90 (rot90 (rotIter 0 I))), 270, false),
         (flipH (rotIter 0 I), 0, true), (rot90 (flipH (rotIter 0 I)), 90, true),
         (rot90 (rot90 (flipH (rotIter 0 I))), 180, true),
         (rot90 (rot90 (rot90 (flipH (rotIter 0 I)))), 270, true)]
        rfl (by intro t ht; cases ht)
        (show hamming (ph I) (ph (rotIter 0 I)) = 0 from hamming_self _)
      rw [h]
    · have h := phash_best_unique_zero ph I (rotIter 1 I)
        [(rotIter 1 I, 0, false), (rot90 (rotIter 1 I), 90, false),
         (rot90 (rot90 (rotIter 1 I)), 180, false)]
        ((rot90 (rot90 (rot90 (rotIter 1 I))), 270, false) : Trial)
        [(flipH (rotIter 1 I), 0, true), (rot90 (flipH (rotIter 1 I)), 90, true),
         (rot90 (rot90 (flipH (rotIter 1 I))), 180, true),
         (rot90 (rot90 (rot90 (flipH (rotIter 1 I)))), 270, true)]
        rfl
        (by
          intro t ht
          fin_cases ht
          · exact hamming_pos_of_ne _ _ (hdist 0 1 (by decide))
          · exact hamming_pos_of_ne _ _ (hdist 0 2 (by decide))
          · exact hamming_pos_of_ne _ _ (hdist 0 3 (by decide)))
        (show hamming (ph I) (ph (rot90 (rot90 (rot90 (rotIter 1 I))))) = 0 by
          rw [show rot90 (rot90 (rot90 (rotIter 1 I))) = I from rotIter_four I]
          exact hamming_self _)
      rw [h]
    · have h := phash_best_unique_zero ph I (rotIter 2 I)
        [(rotIter 2 I, 0, false), (rot90 (rotIter 2 I), 90, false)]
        ((rot90 (rot90 (rotIter 2 I)), 180, false) : Trial)
        [(rot90 (rot90 (rot90 (rotIter 2 I))), 270, false),
         (flipH (rotIter 2 I), 0, true), (rot90 (flipH (rotIter 2 I)), 90, true),
         (rot90 (rot90 (flipH (rotIter 2 I))), 180, true),
         (rot90 (rot90 (rot90 (flipH (rotIter 2 I)))), 270, true)]
        rfl
        (by
          intro t ht
          fin_cases ht
          · exact hamming_pos_of_ne _ _ (hdist 0 2 (by decide))
          · exact hamming_pos_of_ne _ _ (hdist 0 3 (by decide)))
        (show hamming (ph I) (ph (rot90 (rot90 (rotIter 2 I)))) = 0 by
          rw [show rot90 (rot90 (rotIter 2 I)) = I from rotIter_four I]
          exact hamming_self _)
      rw [h]
    · have h := phash_best_unique_zero ph I (rotIter 3 I)
        [(rotIter 3 I, 0, false)]
        ((rot90 (rotIter 3 I), 90, false) : Trial)
        [(rot90 (rot90 (rotIter 3 I)), 180, false),
         (rot90 (rot90 (rot90 (rotIter 3 I))), 270, false),
         (flipH (rotIter 3 I), 0, true), (rot90 (flipH (rotIter 3 I)), 90, true),
         (rot90 (rot90 (flipH (rotIter 3 I))), 180, true),
         (rot90 (rot90 (rot90 (flipH (rotIter 3 I)))), 270, true)]
        rfl
        (by
          intro t ht
          fin_cases ht
          exact hamming_pos_of_ne _ _ (hdist 0 3 (by decide)))
        (show hamming (ph I) (ph (rot90 (rotIter 3 I))) = 0 by
          rw [show rot90 (rotIter 3 I) = I from rotIter_four I]
          exact hamming_self _)
      rw [h]

/-- A hash that distinguishes the four rotations of `Q9` (bit `i` is set iff
`i` is below the top-left pixel value). -/
def phTL : Img → Hash := fun img => fun i => decide (i.val < img.get 0 0)

/-- C3 (counterexample to the claim as stated): for the blank-symmetric image
`imgZ` (all rotations coincide) and `k = 2`, the search returns rotation `0`,
not `k * 90 = 180` — regardless of the hash function, here instantiated with
`constHash`. -/
theorem C3_counterexample :
    (phash_best_rotflip (fun _ => constHash) imgZ (rotIter 2 imgZ)).2.1 ≠ 2 * 90 := by
  decide

theorem C3_witness :
    ((phash_best_rotflip phTL Q9 (rotIter (1 : Fin 4).val Q9)).1 = 0
      ∧ (phash_best_rotflip phTL Q9 (rotIter (1 : Fin 4).val Q9)).2.2 = false)
    ∧ (phash_best_rotflip phTL Q9 (rotIter (1 : Fin 4).val Q9)).2.1
        = ((4 - (1 : Fin 4).val) % 4) * 90 := by
  have h := C3_amended phTL Q9 1
  exact ⟨h.1, h.2 (by decide)⟩

/-- C7 (amended): `phash_best_rotflip` always evaluates all 8 orientations
(4 rotations × mirrored/unmirrored) — its result is a lower bound on, and is
attained by, one of the 8 trial distances with its pose — regardless of the
`AI_USE_MIRROR` flag, which only selects 8 versus 4 orientation variants for
the embedding index. -/
theorem C7_amended :
    ∀ (ph : Img → Hash) (q c : Img),
      (trials c).length = 8
      ∧ (∀ t ∈ trials c, (phash_best_rotflip ph q c).1 ≤ hamming (ph q) (ph t.1))
      ∧ (∃ t ∈ trials c, phash_best_rotflip ph q c = (hamming (ph q) (ph t.1), t.2.1, t.2.2))
      ∧ (rotflip_variants c).length = 8 ∧ (rot_variants c).length = 4 := by
  intro ph q c
  refine ⟨rfl, ?_, ?_, rfl, rfl⟩
  · intro t ht
    rw [phash_eq_bestOf]
    exact bestOf_fst_le _ (trials c) _ t ht
  · rcases bestOf_mem_or_init (fun im => hamming (ph q) (ph im)) (trials c)
      (10 ^ 9, 0, false) with h | ⟨t, ht, h⟩
    · exfalso
      have h1 := bestOf_fst_le (fun im => hamming (ph q) (ph im)) (trials c)
        (10 ^ 9, 0, false) (c, 0, false) (List.mem_cons_self _ _)
      rw [h] at h1
      have h1a : (10 ^ 9 : ℕ) ≤ hamming (ph q) (ph c) := h1
      have h2 := hamming_le_64 (ph q) (ph c)
      exact absurd (le_trans h1a h2) (by norm_num)
    · rw [phash_eq_bestOf]
      exact ⟨t, ht, h⟩

/-- The hash read from the top-left and top-right pixels (bits 0–31 encode
the top-left value, bits 32–63 the top-right). -/
def phC7 : Img → Hash := fun img => fun i =>
  if i.val < 32 then decide (i.val < img.get 0 0) else decide (i.val - 32 < img.get 0 1)

/-- C7 (counterexample to the claim as stated): with mirror search disabled
(`AI_USE_MIRROR = False`), the hash match still tries mirrored orientations:
for a candidate that is the mirror of the query it returns `mirrored = True`. -/
theorem C7_counterexample :
    AI_USE_MIRROR = false
    ∧ (phash_best_rotflip phC7 Q9 (flipH Q9)).2.2 = true := by
  refine ⟨rfl, ?_⟩
  decide

theorem C7_witness :
    (phash_best_rotflip phC7 Q9 (flipH Q9)).1
      ≤ hamming (phC7 Q9) (phC7 (rot90 (flipH Q9))) :=
  (C7_amended phC7 Q9 (flipH Q9)).2.1 (rot90 (flipH Q9), 90, false)
    (List.mem_cons_of_mem _ (List.mem_cons_self _ _))

/-! ## C6 - cache idempotence of the index build -/

theorem lookupC_insertC (D : ℕ) (cache : CacheState D) (key : CKey) (v : CVal D) :
    lookupC D (insertC D cache key v) key = some v := by
  simp [insertC, lookupC]

theorem bdiFresh_cache (D : ℕ) (hf : Bool) (emb : Img → Vec D) (cands : List Cand)
    (um : Bool) (bs : ℕ) (cache : CacheState D) (key : CKey) :
    (bdiFresh D hf emb cands um bs cache key).2.1
      = insertC D cache key
          ((bdiFresh D hf emb cands um bs cache key).1.E,
           (bdiFresh D hf emb cands um bs cache key).1.owner,
           cands.map (·.path)) := rfl

theorem build_hit (D : ℕ) (hf : Bool) (emb : Img → Vec D) (cands : List Cand)
    (um : Bool) (bs : ℕ) (mt sz : ℕ → ℕ) (tag : String) (cache : CacheState D)
    (E0 : List (Vec D)) (owner0 : List ℕ) :
    build_deep_index D hf emb cands um bs mt sz tag
        (insertC D cache (bdiKey cands um mt sz tag) (E0, owner0, cands.map (·.path)))
      = ({ E := E0, owner := owner0, paths := cands.map (·.path),
           kOrients := if um then 8 else 4,
           hasFaiss := hf && decide (0 < E0.length) },
         insertC D cache (bdiKey cands um mt sz tag) (E0, owner0, cands.map (·.path)), 0) := by
  unfold build_deep_index
  rw [lookupC_insertC]
  simp

/-- C6: rebuilding the embedding index from an unchanged candidate set (same
ordered paths, mtimes, sizes, mirror flag and backbone) returns identical
embedding rows and owner array, and performs zero backbone invocations on the
second build. -/
theorem C6_cache_idempotent :
    ∀ (D : ℕ) (hf : Bool) (emb : Img → Vec D) (cands : List Cand) (um : Bool)
      (bs : ℕ) (mt sz : ℕ → ℕ) (tag : String) (cache0 : CacheState D),
      (build_deep_index D hf emb cands um bs mt sz tag
          (build_deep_index D hf emb cands um bs mt sz tag cache0).2.1).1.E
        = (build_deep_index D hf emb cands um bs mt sz tag cache0).1.E
      ∧ (build_deep_index D hf emb cands um bs mt sz tag
          (build_deep_index D hf emb cands um bs mt sz tag cache0).2.1).1.owner
        = (build_deep_index D hf emb cands um bs mt sz tag cache0).1.owner
      ∧ (build_deep_index D hf emb cands um bs mt sz tag
          (build_deep_index D hf emb cands um bs mt sz tag cache0).2.1).2.2 = 0 := by
  intro D hf emb cands um bs mt sz tag cache0
  cases h : lookupC D cache0 (bdiKey cands um mt sz tag) with
  | none =>
    have e1 : build_deep_index D hf emb cands um bs mt sz tag cache0
        = bdiFresh D hf emb cands um bs cache0 (bdiKey cands um mt sz tag) := by
      unfold build_deep_index
      rw [h]
    rw [e1, bdiFresh_cache, build_hit]
    exact ⟨rfl, rfl, rfl⟩
  | some v =>
    by_cases hp : v.2.2 = cands.map (·.path)
    · have e1 : build_deep_index D hf emb cands um bs mt sz tag cache0
          = ({ E := v.1, owner := v.2.1, paths := cands.map (·.path),
               kOrients := if um then 8 else 4,
               hasFaiss := hf && decide (0 < v.1.length) }, cache0, 0) := by
        unfold build_deep_index
        rw [h]
        dsimp only
        rw [if_pos hp]
      rw [e1]
      dsimp only
      rw [e1]
      exact ⟨rfl, rfl, rfl⟩
    · have e1 : build_deep_index D hf emb cands um bs mt sz tag cache0
          = bdiFresh D hf emb cands um bs cache0 (bdiKey cands um mt sz tag) := by
        unfold build_deep_index
        rw [h]
        dsimp only
        rw [if_neg hp]
      rw [e1, bdiFresh_cache, build_hit]
      exact ⟨rfl, rfl, rfl⟩

/-! ## C8 - the prefilter on an empty candidate set / empty index -/

/-- C8: querying the prefilter against the index built from an empty
candidate set does not return an empty shortlist — it raises: the dense path
evaluates `owner.max()` on a zero-length array, a `ValueError`. -/
theorem C8_empty_index_raises :
    deep_prefilter 1 imgZ (fun _ => vzero 1)
      ((build_deep_index 1 true (fun _ => vzero 1) [] false 64
          (fun _ => 0) (fun _ => 0) "" []).1) 80
      = Except.error "ValueError: zero-size array to reduction operation maximum" := by
  rfl

/-! ## C5 - the faiss path against the dense path -/

theorem dedupFirst_go_mem (l : List ℕ) : ∀ (acc : List ℕ) (x : ℕ),
    x ∈ l.foldl (fun acc y => if y ∈ acc then acc else acc ++ [y]) acc ↔ x ∈ acc ∨ x ∈ l := by
  induction l with
  | nil => intro acc x; simp
  | cons y ys ih =>
    intro acc x
    rw [List.foldl_cons, ih]
    by_cases hy : y ∈ acc
    · rw [if_pos hy]
      simp only [List.mem_cons]
      constructor
      · rintro (h | h)
        · exact Or.inl h
        · exact Or.inr (Or.inr h)
      · rintro (h | rfl | h)
        · exact Or.inl h
        · exact Or.inl hy
        · exact Or.inr h
    · rw [if_neg hy]
      simp only [List.mem_append, List.mem_singleton, List.mem_cons]
      tauto

theorem dedupFirst_mem (l : List ℕ) (x : ℕ) : x ∈ dedupFirst l ↔ x ∈ l := by
  unfold dedupFirst
  rw [dedupFirst_go_mem]
  simp

theorem dedupFirst_go_nodup (l : List ℕ) : ∀ acc : List ℕ, acc.Nodup →
    (l.foldl (fun acc y => if y ∈ acc then acc else acc ++ [y]) acc).Nodup := by
  induction l with
  | nil => intro acc h; simpa using h
  | cons y ys ih =>
    intro acc h
    rw [List.foldl_cons]
    by_cases hy : y ∈ acc
    · rw [if_pos hy]
      exact ih acc h
    · rw [if_neg hy]
      refine ih _ ?_
      rw [List.nodup_append]
      refine ⟨h, List.nodup_singleton y, ?_⟩
      intro a ha hb
      rw [List.mem_singleton] at hb
      exact hy (hb ▸ ha)

theorem dedupFirst_nodup (l : List ℕ) : (dedupFirst l).Nodup :=
  dedupFirst_go_nodup l [] List.nodup_nil

theorem foldl_max_init_le (l : List ℕ) : ∀ b : ℕ, b ≤ l.foldl max b := by
  induction l with
  | nil => intro b; exact le_refl b
  | cons x xs ih =>
    intro b
    rw [List.foldl_cons]
    exact le_trans (le_max_left b x) (ih _)

theorem le_foldl_max (l : List ℕ) : ∀ b a : ℕ, a ∈ l → a ≤ l.foldl max b := by
  induction l with
  | nil => intro b a h; cases h
  | cons x xs ih =>
    intro b a h
    rw [List.foldl_cons]
    rcases List.mem_cons.mp h with rfl | h2
    · exact le_trans (le_max_right b a) (foldl_max_init_le xs _)
    · exact ih _ a h2

theorem le_npMaxN (l : List ℕ) (a : ℕ) (h : a ∈ l) : a ≤ npMaxN l :=
  le_foldl_max l 0 a h

theorem faissSearch_perm (D : ℕ) (E : List (Vec D)) (v : Vec D) (K : ℕ)
    (hK : E.length ≤ K) : (faissSearch D E v K).Perm (List.range E.length) := by
  unfold faissSearch
  rw [List.take_of_length_le]
  · exact List.perm_insertionSort _ _
  · rw [List.length_insertionSort, List.length_range]
    exact hK

theorem qembOf_ne_nil (D : ℕ) (qimg : Img) (emb : Img → Vec D) (idx : DeepIdx D) :
    qembOf D qimg emb idx ≠ [] := by
  unfold qembOf
  split <;> simp [rotflip_variants, rot_variants]

/-- The strict version of the descending similarity order (used to show a
stable descending sort of pairwise-distinct similarities is unique). -/
def relStrictQ (a b : ℕ × ℚ) : Prop := b.2 < a.2

instance : IsAntisymm (ℕ × ℚ) relStrictQ :=
  ⟨fun _ _ h1 h2 => absurd (lt_trans h1 h2) (lt_irrefl _)⟩

theorem sortAssoc_eq_of_perm (f : ℕ → ℕ × ℚ) (ks1 ks2 : List ℕ)
    (hperm : ks1.Perm ks2) (h1 : ks1.Nodup)
    (hinj : ∀ a ∈ ks1, ∀ b ∈ ks1, a ≠ b → (f a).2 ≠ (f b).2) :
    List.insertionSort relDesc (ks1.map f) = List.insertionSort relDesc (ks2.map f) := by
  have hsym : ∀ {x y : ℕ × ℚ}, x.2 ≠ y.2 → y.2 ≠ x.2 := fun h => Ne.symm h
  have hmp : (ks1.map f).Perm (ks2.map f) := hperm.map f
  have hs1 : (List.insertionSort relDesc (ks1.map f)).Perm (ks1.map f) :=
    List.perm_insertionSort _ _
  have hs2 : (List.insertionSort relDesc (ks2.map f)).Perm (ks2.map f) :=
    List.perm_insertionSort _ _
  have hne1 : List.Pairwise (fun a b : ℕ × ℚ => a.2 ≠ b.2) (ks1.map f) := by
    rw [List.pairwise_map]
    exact List.Nodup.pairwise_of_forall_ne h1 hinj
  have hne2 : List.Pairwise (fun a b : ℕ × ℚ => a.2 ≠ b.2) (ks2.map f) :=
    (hmp.pairwise_iff hsym).mp hne1
  have hpw1 : List.Pairwise (fun a b : ℕ × ℚ => a.2 ≠ b.2)
      (List.insertionSort relDesc (ks1.map f)) := (hs1.pairwise_iff hsym).mpr hne1
  have hpw2 : List.Pairwise (fun a b : ℕ × ℚ => a.2 ≠ b.2)
      (List.insertionSort relDesc (ks2.map f)) := (hs2.pairwise_iff hsym).mpr hne2
  have hsort1 : List.Sorted relDesc (List.insertionSort relDesc (ks1.map f)) :=
    List.sorted_insertionSort relDesc _
  have hsort2 : List.Sorted relDesc (List.insertionSort relDesc (ks2.map f)) :=
    List.sorted_insertionSort relDesc _
  have hstrict1 : List.Sorted relStrictQ (List.insertionSort relDesc (ks1.map f)) :=
    (List.Pairwise.and hsort1 hpw1).imp (fun hab => lt_of_le_of_ne hab.1 (Ne.symm hab.2))
  have hstrict2 : List.Sorted relStrictQ (List.insertionSort relDesc (ks2.map f)) :=
    (List.Pairwise.and hsort2 hpw2).imp (fun hab => lt_of_le_of_ne hab.1 (Ne.symm hab.2))
  exact List.eq_of_perm_of_sorted ((hs1.trans hmp).trans hs2.symm) hstrict1 hstrict2

theorem shortlist_core (D : ℕ) (qe : List (Vec D)) (idx : DeepIdx D) (topM : ℕ)
    (hqe : qe ≠ [])
    (hlen : idx.owner.length = idx.E.length)
    (hcov : idx.E.length ≤ max topM 50)
    (hinj : ∀ o1 ∈ idx.owner, ∀ o2 ∈ idx.owner, o1 ≠ o2 →
      ownerMaxSim D qe idx o1 ≠ ownerMaxSim D qe idx o2) :
    faissShortlist D qe idx topM = exactShortlist D qe idx topM := by
  have hK : idx.E.length ≤ min (max topM 50) idx.E.length :=
    le_of_eq (min_eq_right hcov).symm
  have hmemO : ∀ x : ℕ,
      (x ∈ qe.flatMap (fun v =>
        (faissSearch D idx.E v (min (max topM 50) idx.E.length)).map
          (fun j => idx.owner.getD j 0))) ↔ x ∈ idx.owner := by
    intro x
    rw [List.mem_flatMap]
    constructor
    · rintro ⟨v, _, hx⟩
      rcases List.mem_map.mp hx with ⟨j, hj, rfl⟩
      have hj2 : j ∈ List.range idx.E.length :=
        ((faissSearch_perm D idx.E v _ hK).mem_iff).mp hj
      have hjlt : j < idx.owner.length := by
        rw [hlen]
        exact List.mem_range.mp hj2
      rw [List.getD_eq_getElem idx.owner 0 hjlt]
      exact List.getElem_mem hjlt
    · intro hx
      rcases List.mem_iff_getElem.mp hx with ⟨j, hjlt, hje⟩
      obtain ⟨v, hv⟩ := List.exists_mem_of_ne_nil _ hqe
      refine ⟨v, hv, List.mem_map.mpr ⟨j, ?_, ?_⟩⟩
      · exact ((faissSearch_perm D idx.E v _ hK).mem_iff).mpr
          (List.mem_range.mpr (hlen ▸ hjlt))
      · rw [List.getD_eq_getElem idx.owner 0 hjlt]
        exact hje
  have hmemK : ∀ x : ℕ,
      (x ∈ (List.range (npMaxN idx.owner + 1)).filter (fun o => decide (o ∈ idx.owner)))
        ↔ x ∈ idx.owner := by
    intro x
    rw [List.mem_filter]
    simp only [decide_eq_true_eq, List.mem_range]
    constructor
    · rintro ⟨_, h⟩
      exact h
    · intro h
      exact ⟨Nat.lt_succ_of_le (le_npMaxN _ _ h), h⟩
  have huniqN : (dedupFirst (qe.flatMap (fun v =>
      (faissSearch D idx.E v (min (max topM 50) idx.E.length)).map
        (fun j => idx.owner.getD j 0)))).Nodup := dedupFirst_nodup _
  have hkeysN : ((List.range (npMaxN idx.owner + 1)).filter
      (fun o => decide (o ∈ idx.owner))).Nodup :=
    (List.nodup_range _).filter _
  have hperm : (dedupFirst (qe.flatMap (fun v =>
      (faissSearch D idx.E v (min (max topM 50) idx.E.length)).map
        (fun j => idx.owner.getD j 0)))).Perm
      ((List.range (npMaxN idx.owner + 1)).filter (fun o => decide (o ∈ idx.owner))) := by
    rw [List.perm_ext_iff_of_nodup huniqN hkeysN]
    intro x
    rw [dedupFirst_mem, hmemO x, hmemK x]
  have hinj2 : ∀ a ∈ dedupFirst (qe.flatMap (fun v =>
      (faissSearch D idx.E v (min (max topM 50) idx.E.length)).map
        (fun j => idx.owner.getD j 0))),
      ∀ b ∈ dedupFirst (qe.flatMap (fun v =>
      (faissSearch D idx.E v (min (max topM 50) idx.E.length)).map
        (fun j => idx.owner.getD j 0))), a ≠ b →
      ((fun o => (o, ownerMaxSim D qe idx o)) a).2 ≠ ((fun o => (o, ownerMaxSim D qe idx o)) b).2 := by
    intro a ha b hb hab
    exact hinj a ((hmemO a).mp ((dedupFirst_mem _ a).mp ha))
      b ((hmemO b).mp ((dedupFirst_mem _ b).mp hb)) hab
  simp only [faissShortlist, exactShortlist]
  rw [sortAssoc_eq_of_perm (fun o => (o, ownerMaxSim D qe idx o)) _ _ hperm huniqN hinj2]

/-- C5 (amended): the faiss shortlist and the dense shortlist agree whenever
(a) the owner array is non-empty (else the dense path raises, see C8), (b) the
index is well-formed (one owner per embedding row), (c) the per-orientation
retrieval depth `min(max(top_m, 50), rows)` covers every row — i.e. the row
count is at most `max(top_m, 50)` — and (d) no two owners tie on maximum
similarity.  Without (c) the faiss path can drop owners entirely; without (d)
the two stable descending sorts may order tied owners differently (see the
counterexample). -/
theorem C5_amended (D : ℕ) (q : Img) (emb : Img → Vec D) (idx : DeepIdx D) (topM : ℕ)
    (hne : idx.owner ≠ [])
    (hlen : idx.owner.length = idx.E.length)
    (hcov : idx.E.length ≤ max topM 50)
    (hinj : ∀ o1 ∈ idx.owner, ∀ o2 ∈ idx.owner, o1 ≠ o2 →
      ownerMaxSim D (qembOf D q emb idx) idx o1 ≠ ownerMaxSim D (qembOf D q emb idx) idx o2) :
    deep_prefilter D q emb { idx with hasFaiss := true } topM
      = deep_prefilter D q emb { idx with hasFaiss := false } topM := by
  have hT : deep_prefilter D q emb { idx with hasFaiss := true } topM
      = Except.ok (faissShortlist D (qembOf D q emb idx) idx topM) := rfl
  have hF : deep_prefilter D q emb { idx with hasFaiss := false } topM
      = Except.ok (exactShortlist D (qembOf D q emb idx) idx topM) := by
    simp only [deep_prefilter]
    rw [if_neg Bool.false_ne_true, if_neg hne]
    rfl
  rw [hT, hF,
    shortlist_core D (qembOf D q emb idx) idx topM (qembOf_ne_nil D q emb idx) hlen hcov hinj]

def wC5a : Vec 2 := fun i => if i = 0 then 8 else if i = 1 then 9 else 0

def wC5b : Vec 2 := fun i => if i = 0 then 9 else if i = 1 then 8 else 0

def eC5a : Vec 2 := fun i => if i = 0 then 1 else 0

def eC5b : Vec 2 := fun i => if i = 0 then 0 else 1

/-- A backbone that sends the query `Q9` to `wC5a`, its 90° rotation to
`wC5b`, and everything else (the two remaining rotations) to the zero row. -/
def embC5 : Img → Vec 2 := fun img =>
  if img.get 0 0 = 1 then wC5a else if img.get 0 0 = 2 then wC5b else vzero 2

/-- A two-row index: candidate 0 owns row `eC5a`, candidate 1 owns row
`eC5b`; both owners reach maximum similarity 9 against [wC5a, wC5b, 0, 0]. -/
def idxC5 : DeepIdx 2 := ⟨[eC5a, eC5b], [0, 1], [0, 1], 4, true⟩

/-- C5 (counterexample to the claim as stated): with two owners tied at
maximum similarity 9, the faiss path returns [1, 0] (owner 1's row wins the
first orientation query, so it enters the dedup pool first and the stable
descending sort keeps it first) while the dense path returns [0, 1]
(ascending owner scan) - same owners, different order. -/
theorem C5_counterexample :
    deep_prefilter 2 Q9 embC5 idxC5 5 = Except.ok [1, 0]
    ∧ deep_prefilter 2 Q9 embC5 { idxC5 with hasFaiss := false } 5 = Except.ok [0, 1] := by
  have hqT : qembOf 2 Q9 embC5 (⟨[eC5a, eC5b], [0, 1], [0, 1], 4, true⟩ : DeepIdx 2)
      = [wC5a, wC5b, vzero 2, vzero 2] := rfl
  have hqF : qembOf 2 Q9 embC5 (⟨[eC5a, eC5b], [0, 1], [0, 1], 4, false⟩ : DeepIdx 2)
      = [wC5a, wC5b, vzero 2, vzero 2] := rfl
  have d1 : dot 2 wC5a eC5a = 8 := by
    norm_num [dot, wC5a, eC5a, List.range_succ]
  have d2 : dot 2 wC5a eC5b = 9 := by
    norm_num [dot, wC5a, eC5b, List.range_succ]
  have d3 : dot 2 wC5b eC5a = 9 := by
    norm_num [dot, wC5b, eC5a, List.range_succ]
  have d4 : dot 2 wC5b eC5b = 8 := by
    norm_num [dot, wC5b, eC5b, List.range_succ]
  have d5 : dot 2 (vzero 2) eC5a = 0 := by
    norm_num [dot, vzero, eC5a, List.range_succ]
  have d6 : dot 2 (vzero 2) eC5b = 0 := by
    norm_num [dot, vzero, eC5b, List.range_succ]
  constructor
  · rw [deep_prefilter]
    norm_num [idxC5, hqT, faissShortlist, faissSearch, ownerMaxSim, npMaxQ, npMaxN, dedupFirst,
      List.range_succ, List.insertionSort, List.orderedInsert, relDesc,
      d1, d2, d3, d4, d5, d6]
  · rw [deep_prefilter]
    norm_num [idxC5, hqF, exactShortlist, ownerMaxSim, npMaxQ, npMaxN,
      List.range_succ, List.insertionSort, List.orderedInsert, relDesc,
      d1, d2, d3, d4, d5, d6]
    intro hcon
    simp at hcon

/-- A one-row, one-owner index for the witness: no ties are possible. -/
def idxC5w : DeepIdx 1 := ⟨[fun _ => 8], [0], [0], 4, true⟩

theorem C5_witness :
    deep_prefilter 1 imgZ (fun _ => fun _ => (1 : ℚ)) { idxC5w with hasFaiss := true } 80
      = deep_prefilter 1 imgZ (fun _ => fun _ => (1 : ℚ)) { idxC5w with hasFaiss := false } 80 := by
  apply C5_amended
  · intro h
    exact absurd (congrArg List.length h) (by decide)
  · rfl
  · decide
  · intro o1 h1 o2 h2 h12
    rw [show idxC5w.owner = [0] from rfl, List.mem_singleton] at h1 h2
    exact absurd (h1.trans h2.symm) h12
